import Mathlib

/-!
# Verification of the patent ingestion-and-retrieval pipeline

Shallow embedding of the core of `patent_dev_v0.1`: the chunker, the
ingestion pipeline, the search engine, and the two frontend handlers
(`SearchBox.handleSubmit`, `App.handleSearch` from
`frontend/src/App.jsx` / `frontend/src/components/SearchBox.jsx`).

The repository ships only the frontend sources; the backend modules
(`backend/utils/chunker.py`, `backend/ingest.py`, `backend/app.py`) are
declared in the READMEs but their code is not in the tree, so the
chunker, ingestion and search definitions below are modelled from the
specification's component contracts (§4.1–§4.4), as noted on each
definition.  The frontend handlers are translated from the JSX source.
-/

namespace PatentDev

/-! ## Chunker data model (spec §3) -/

/-- A chunk of a document's text: `sequence_index` is the 0-based order,
`text` the bounded slice, `char_start`/`char_end` the offsets into the
source text. -/
structure Chunk where
  sequence_index : Nat
  text : List Char
  char_start : Nat
  char_end : Nat
deriving Repr, DecidableEq

/-- Sentence/whitespace boundary characters the chunker prefers to break
after. -/
def isBoundaryChar (c : Char) : Bool :=
  c.isWhitespace || c = '.' || c = '!' || c = '?'

/-- Modelled from the spec (§4.1, `backend/utils/chunker.py` is absent
from the tree): search backwards from `hardEnd` within a lookback
`window` for a position `j` with `lo < j ≤ hardEnd` whose preceding
character is a sentence/whitespace boundary; `none` when no boundary is
found in the window. -/
def lookBack (text : List Char) (lo : Nat) : Nat → Nat → Option Nat
  | _, 0 => none
  | j, w + 1 =>
    if lo < j then
      if isBoundaryChar (text.getD (j - 1) ' ') then some j
      else lookBack text lo (j - 1) w
    else none

/-- Modelled from the spec (§4.1): the end of the next chunk — the
nearest preceding boundary within the lookback window, falling back to
the hard cut `hardEnd` when none is found. -/
def findBreak (text : List Char) (lo hardEnd window : Nat) : Nat :=
  (lookBack text lo hardEnd window).getD hardEnd

/-- Modelled from the spec (§4.1, `backend/utils/chunker.py` is absent
from the tree): scan the text left to right producing segments of at
most `maxC` characters; each successive segment begins `maxC - ov`
characters after the previous segment's start; a segment that does not
reach the end of the text prefers to end at a sentence or whitespace
boundary within a small lookback window (taken to be `ov`, the largest
window consistent with the spec's coverage property §8); the final
segment runs to the end of the text.  The spec leaves the window size
as "small"; any window of at most `ov` yields the same theorems.  The
`fuel` argument makes the recursion structural; `chunk` passes
`text.length`, which the lemmas below show is always enough. -/
def chunkLoop (text : List Char) (maxC ov : Nat) : Nat → Nat → Nat → List Chunk
  | 0, _, _ => []
  | fuel + 1, pos, idx =>
    if pos < text.length ∧ ov < maxC then
      if pos + maxC ≥ text.length then
        [⟨idx, (text.drop pos).take (text.length - pos), pos, text.length⟩]
      else
        ⟨idx, (text.drop pos).take (findBreak text pos (pos + maxC) ov - pos), pos,
            findBreak text pos (pos + maxC) ov⟩ ::
          chunkLoop text maxC ov fuel (pos + (maxC - ov)) (idx + 1)
    else []

/-- Errors of the chunker contract (spec §4.1/§7). -/
inductive ChunkError where
  | InvalidConfiguration
deriving Repr, DecidableEq

/-- Modelled from the spec (§4.1): `chunk(document_text, max_chunk_chars,
overlap_chars)` — validates `max_chunk_chars > 0` and
`0 ≤ overlap_chars < max_chunk_chars` before producing any chunk, then
runs the scanning loop from position 0 with `sequence_index` 0. -/
def chunk (text : List Char) (maxC ov : Nat) : Except ChunkError (List Chunk) :=
  if 0 < maxC ∧ ov < maxC then
    .ok (chunkLoop text maxC ov text.length 0 0)
  else
    .error .InvalidConfiguration

/-! ## Chunker invariants -/

/-- Adjacent-pair discipline of a chunk list: each next chunk starts no
later than the previous chunk's end (no gap) and the previous chunk's
end runs at most `ov` characters into the next chunk (overlap bound). -/
def adjOk (ov : Nat) : List Chunk → Bool
  | a :: b :: rest =>
    (decide (b.char_start ≤ a.char_end) && decide (a.char_end ≤ b.char_start + ov))
      && adjOk ov (b :: rest)
  | _ => true

/-- Every position of the source text is inside some chunk's
`[char_start, char_end)` span. -/
def covers (n : Nat) (cs : List Chunk) : Prop :=
  ∀ j, j < n → ∃ c ∈ cs, c.char_start ≤ j ∧ j < c.char_end

theorem lookBack_bounds (text : List Char) (lo : Nat) :
    ∀ j w r, lookBack text lo j w = some r → lo < r ∧ r ≤ j ∧ j - r < w := by
  intro j w
  induction w generalizing j with
  | zero => intro r h; simp [lookBack] at h
  | succ w ih =>
    intro r h
    rw [lookBack] at h
    by_cases hlo : lo < j
    · simp only [hlo, if_true] at h
      by_cases hb : isBoundaryChar (text.getD (j - 1) ' ') = true
      · simp only [hb, if_true] at h
        injection h with h
        omega
      · simp only [hb, if_false] at h
        have := ih (j - 1) r h
        omega
    · simp [hlo] at h

theorem findBreak_bounds (text : List Char) (lo hardEnd window : Nat)
    (hlo : lo < hardEnd) :
    lo < findBreak text lo hardEnd window ∧
      findBreak text lo hardEnd window ≤ hardEnd ∧
      hardEnd - findBreak text lo hardEnd window ≤ window := by
  unfold findBreak
  cases h : lookBack text lo hardEnd window with
  | none => simp; omega
  | some r =>
    have := lookBack_bounds text lo hardEnd window r h
    simp [Option.getD]
    omega

theorem chunkLoop_cons (text : List Char) (maxC ov : Nat) :
    ∀ fuel pos idx c cs, chunkLoop text maxC ov fuel pos idx = c :: cs →
      c.char_start = pos := by
  intro fuel
  cases fuel with
  | zero =>
    intro pos idx c cs h
    exact absurd h (by rw [chunkLoop]; simp)
  | succ fuel =>
    intro pos idx c cs h
    rw [chunkLoop] at h
    by_cases hp : pos < text.length ∧ ov < maxC
    · rw [if_pos hp] at h
      by_cases hend : pos + maxC ≥ text.length
      · rw [if_pos hend] at h
        injection h with h1
        rw [← h1]
      · rw [if_neg hend] at h
        injection h with h1
        rw [← h1]
    · rw [if_neg hp] at h
      exact absurd h (by simp)

theorem chunkLoop_mem (text : List Char) (maxC ov : Nat) :
    ∀ fuel pos idx c, c ∈ chunkLoop text maxC ov fuel pos idx →
      pos ≤ c.char_start ∧ c.char_start < c.char_end ∧ c.char_end ≤ text.length ∧
        c.char_end - c.char_start ≤ maxC ∧
        c.text = (text.drop c.char_start).take (c.char_end - c.char_start) := by
  intro fuel
  induction fuel with
  | zero =>
    intro pos idx c hc
    rw [chunkLoop] at hc
    exact absurd hc (List.not_mem_nil c)
  | succ fuel ih =>
    intro pos idx c hc
    rw [chunkLoop] at hc
    by_cases hp : pos < text.length ∧ ov < maxC
    · rw [if_pos hp] at hc
      by_cases hend : pos + maxC ≥ text.length
      · rw [if_pos hend] at hc
        simp only [List.mem_singleton] at hc
        subst hc
        dsimp only
        exact ⟨Nat.le_refl _, by omega, Nat.le_refl _, by omega, rfl⟩
      · rw [if_neg hend] at hc
        have hb := findBreak_bounds text pos (pos + maxC) ov (by omega)
        rcases List.mem_cons.mp hc with hc | hc
        · subst hc
          dsimp only
          exact ⟨Nat.le_refl _, by omega, by omega, by omega, rfl⟩
        · obtain ⟨h1, h2, h3, h4, h5⟩ := ih (pos + (maxC - ov)) (idx + 1) c hc
          exact ⟨by omega, h2, h3, h4, h5⟩
    · rw [if_neg hp] at hc
      exact absurd hc (List.not_mem_nil c)

theorem chunkLoop_adjOk (text : List Char) (maxC ov : Nat) :
    ∀ fuel pos idx, adjOk ov (chunkLoop text maxC ov fuel pos idx) = true := by
  intro fuel
  induction fuel with
  | zero =>
    intro pos idx
    rw [chunkLoop]
    rfl
  | succ fuel ih =>
    intro pos idx
    rw [chunkLoop]
    by_cases hp : pos < text.length ∧ ov < maxC
    · rw [if_pos hp]
      by_cases hend : pos + maxC ≥ text.length
      · rw [if_pos hend]
        rfl
      · rw [if_neg hend]
        have hb := findBreak_bounds text pos (pos + maxC) ov (by omega)
        cases hrec : chunkLoop text maxC ov fuel (pos + (maxC - ov)) (idx + 1) with
        | nil => rfl
        | cons c2 cs2 =>
          have hstart := chunkLoop_cons text maxC ov fuel _ _ c2 cs2 hrec
          have ihx := ih (pos + (maxC - ov)) (idx + 1)
          rw [hrec] at ihx
          unfold adjOk
          rw [ihx]
          dsimp only
          rw [hstart]
          simp only [Bool.and_true, Bool.and_eq_true, decide_eq_true_eq]
          omega
    · rw [if_neg hp]
      rfl

theorem chunkLoop_covers (text : List Char) (maxC ov : Nat) (hov : ov < maxC) :
    ∀ fuel pos idx, text.length ≤ pos + fuel → ∀ j, pos ≤ j → j < text.length →
      ∃ c ∈ chunkLoop text maxC ov fuel pos idx, c.char_start ≤ j ∧ j < c.char_end := by
  intro fuel
  induction fuel with
  | zero =>
    intro pos idx hfuel j h1 h2
    omega
  | succ fuel ih =>
    intro pos idx hfuel j h1 h2
    have hp : pos < text.length ∧ ov < maxC := ⟨by omega, hov⟩
    rw [chunkLoop, if_pos hp]
    by_cases hend : pos + maxC ≥ text.length
    · rw [if_pos hend]
      exact ⟨_, List.mem_singleton.mpr rfl, h1, h2⟩
    · rw [if_neg hend]
      have hb := findBreak_bounds text pos (pos + maxC) ov (by omega)
      by_cases hj : j < findBreak text pos (pos + maxC) ov
      · exact ⟨_, List.mem_cons_self _ _, h1, hj⟩
      · obtain ⟨c, hc, hc1, hc2⟩ := ih (pos + (maxC - ov)) (idx + 1) (by omega) j (by omega) h2
        exact ⟨c, List.mem_cons_of_mem _ hc, hc1, hc2⟩

/-- `T0` — a concrete patent-like text used by the witnesses. -/
def T0 : List Char := "A method for cooling. The device has fins. It works well.".data

/-- **C3.** For every text and every valid parameter pair
(`max_chunk_chars > 0`, `0 ≤ overlap_chars < max_chunk_chars`), `chunk`
succeeds and its chunk sequence satisfies: the `[char_start, char_end)`
spans in order cover all of the text (every position lies in some span,
and each successive span starts no later than the previous ends),
consecutive chunks overlap by at most `overlap_chars`, no chunk's text
exceeds `max_chunk_chars` characters, and no chunk is empty. -/
theorem chunk_spans_cover_and_bound (T : List Char) (maxC ov : Nat)
    (hmax : 0 < maxC) (hov : ov < maxC) :
    ∃ cs, chunk T maxC ov = Except.ok cs ∧ covers T.length cs ∧
      adjOk ov cs = true ∧ ∀ c ∈ cs, c.text.length ≤ maxC ∧ c.text ≠ [] := by
  refine ⟨chunkLoop T maxC ov T.length 0 0, ?_, ?_,
    chunkLoop_adjOk T maxC ov T.length 0 0, ?_⟩
  · rw [chunk, if_pos ⟨hmax, hov⟩]
  · intro j hj
    exact chunkLoop_covers T maxC ov hov T.length 0 0 (by omega) j (Nat.zero_le j) hj
  · intro c hc
    obtain ⟨h1, h2, h3, h4, h5⟩ := chunkLoop_mem T maxC ov T.length 0 0 c hc
    constructor
    · rw [h5, List.length_take, List.length_drop]
      omega
    · apply List.ne_nil_of_length_pos
      rw [h5, List.length_take, List.length_drop]
      omega

/-- **C3 witness**: the property at a concrete text and parameters. -/
theorem chunk_spans_cover_and_bound_witness :
    ∃ cs, chunk T0 20 6 = Except.ok cs ∧ covers T0.length cs ∧
      adjOk 6 cs = true ∧ ∀ c ∈ cs, c.text.length ≤ 20 ∧ c.text ≠ [] :=
  chunk_spans_cover_and_bound T0 20 6 (by decide) (by decide)

/-- **C4.** Chunking is a pure, deterministic function of its arguments:
two invocations of `chunk` on identical text and identical parameters
return identical chunk sequences; there is no hidden state. -/
theorem chunk_deterministic (T1 T2 : List Char) (m1 m2 o1 o2 : Nat)
    (hT : T1 = T2) (hm : m1 = m2) (ho : o1 = o2) :
    chunk T1 m1 o1 = chunk T2 m2 o2 := by
  subst hT
  subst hm
  subst ho
  rfl

/-- **C4 witness**: determinism at a concrete text and parameters. -/
theorem chunk_deterministic_witness : chunk T0 20 6 = chunk T0 20 6 :=
  chunk_deterministic T0 T0 20 20 6 6 rfl rfl rfl

/-! ## Search engine data model (spec §3, §4.4) -/

/-- Lexicographic order on character lists by code point — the
"`patent_id` ascending" order of spec §4.4 step 5, kept executable. -/
def strLt : List Char → List Char → Bool
  | [], [] => false
  | [], _ :: _ => true
  | _ :: _, [] => false
  | a :: as, b :: bs =>
    if a < b then true
    else if b < a then false
    else strLt as bs

/-- Strict "patent_id ascending" order on ids. -/
def idLt (a b : String) : Bool := strLt a.data b.data

/-- Reflexive "patent_id ascending" order on ids. -/
def idLe (a b : String) : Bool := a == b || idLt a b

/-- A canonical patent record of the Metadata Store (spec §3): id,
title, abstract and the opaque extension map of structured fields. -/
structure MetaRecord where
  patent_id : String
  title : String
  abstract : String
  fields : List (String × String)
deriving Repr, DecidableEq

/-- A similarity hit returned by the Vector Index query (spec §6):
the chunk's back-reference to its document, the similarity score and
the matched chunk text carried in the payload. -/
structure VHit where
  source_id : String
  score : Rat
  chunk_text : String
deriving Repr, DecidableEq

/-- A search result (spec §3): `patent_id`, similarity `score`, the
matched chunk text, and the resolved metadata record. -/
structure SearchResult where
  patent_id : String
  score : Rat
  matched_chunk_text : String
  meta : MetaRecord
deriving Repr, DecidableEq

/-- The external collaborators of the Search Engine (spec §6): query
embedding, vector-index top-N query, metadata lookup.  Each is a pure
oracle; the network effects are recorded separately as `NetCall`s. -/
structure SearchEnv where
  embedQ : String → List Rat
  indexQuery : List Rat → Nat → List VHit
  metaGet : String → Option MetaRecord

/-- One network call issued by the Search Engine. -/
inductive NetCall where
  | embedCall (queryText : String)
  | indexCall (vec : List Rat) (topN : Nat)
  | metaCall (source_id : String)
deriving Repr, DecidableEq

/-- Search-engine errors surfaced to the caller (spec §7). -/
inductive SearchError where
  | ValidationError
deriving Repr, DecidableEq

/-- Modelled from the spec (§4.4 step 3, `backend/app.py` is absent from
the tree): resolve each hit to its `source_id` in the Metadata Store; a
hit whose `source_id` has no record (store/index drift) is dropped and
the rest proceed. -/
def resolveHits (env : SearchEnv) (hits : List VHit) : List SearchResult :=
  hits.filterMap fun h =>
    (env.metaGet h.source_id).map fun r =>
      { patent_id := h.source_id, score := h.score,
        matched_chunk_text := h.chunk_text, meta := r }

/-- Modelled from the spec (§4.4 step 4): merge one result into a
deduplicated accumulator — replace the entry with the same `patent_id`
when the new score is strictly higher, keep the old one otherwise,
append when the patent is new. -/
def insertBest (r : SearchResult) : List SearchResult → List SearchResult
  | [] => [r]
  | a :: rest =>
    if a.patent_id = r.patent_id then
      if a.score < r.score then r :: rest else a :: rest
    else a :: insertBest r rest

/-- Modelled from the spec (§4.4 step 4): deduplicate by `patent_id`,
keeping only the highest-scoring chunk per patent. -/
def dedupBest : List SearchResult → List SearchResult
  | [] => []
  | r :: rest => insertBest r (dedupBest rest)

/-- The ranking order of spec §4.4 step 5: score descending, ties broken
by `patent_id` ascending. -/
def resOrder (a b : SearchResult) : Prop :=
  b.score < a.score ∨ (a.score = b.score ∧ idLe a.patent_id b.patent_id = true)

instance : DecidableRel resOrder := fun a b =>
  inferInstanceAs (Decidable (_ ∨ _))

/-- Modelled from the spec (§4.4 step 5): sort results by score
descending with the deterministic `patent_id` tie-break. -/
def sortResults (l : List SearchResult) : List SearchResult :=
  List.insertionSort resOrder l

/-- Modelled from the spec (§4.4 step 6): a result passes the structured
post-filter when every requested key/value pair occurs among its
resolved metadata fields. -/
def matchesFilters (filters : List (String × String)) (r : SearchResult) : Bool :=
  filters.all fun kv => r.meta.fields.contains kv

/-- The candidate results of a query: the over-fetched top-`3 * top_k`
similarity hits (spec §4.4 step 2), resolved against the Metadata Store
(step 3). -/
def candidates (env : SearchEnv) (query : String) (top_k : Nat) : List SearchResult :=
  resolveHits env (env.indexQuery (env.embedQ query) (3 * top_k))

/-- Modelled from the spec (§4.4 steps 2–7): the ranking pipeline after
validation — over-fetch, resolve, deduplicate, sort, post-filter,
truncate to `top_k`. -/
def searchCore (env : SearchEnv) (query : String) (top_k : Nat)
    (filters : List (String × String)) : List SearchResult :=
  ((sortResults (dedupBest (candidates env query top_k))).filter
      (matchesFilters filters)).take top_k

/-- Modelled from the spec (§4.4, `backend/app.py` is absent from the
tree): `search(query, top_k, filters)` together with the ordered list of
network calls it issues.  An empty query fails with `ValidationError`
before any network call; otherwise the engine embeds the query, queries
the index for `3 * top_k` hits, looks each hit up in the Metadata Store,
and runs the pure ranking pipeline. -/
def searchTrace (env : SearchEnv) (query : String) (top_k : Nat)
    (filters : List (String × String)) :
    Except SearchError (List SearchResult) × List NetCall :=
  if query = "" then (.error .ValidationError, [])
  else
    (.ok (searchCore env query top_k filters),
      .embedCall query ::
        .indexCall (env.embedQ query) (3 * top_k) ::
          (env.indexQuery (env.embedQ query) (3 * top_k)).map fun h =>
            .metaCall h.source_id)

/-- The result component of `searchTrace`. -/
def search (env : SearchEnv) (query : String) (top_k : Nat)
    (filters : List (String × String)) : Except SearchError (List SearchResult) :=
  (searchTrace env query top_k filters).1

/-! ## Order lemmas for the ranking relation -/

theorem strLt_trichotomy : ∀ as bs, strLt as bs = true ∨ as = bs ∨ strLt bs as = true
  | [], [] => Or.inr (Or.inl rfl)
  | [], _ :: _ => Or.inl rfl
  | _ :: _, [] => Or.inr (Or.inr rfl)
  | a :: as, b :: bs => by
    rcases lt_trichotomy a b with h | h | h
    · exact Or.inl (by simp [strLt, h])
    · subst h
      rcases strLt_trichotomy as bs with h2 | h2 | h2
      · exact Or.inl (by simp [strLt, lt_irrefl, h2])
      · exact Or.inr (Or.inl (by rw [h2]))
      · exact Or.inr (Or.inr (by simp [strLt, lt_irrefl, h2]))
    · exact Or.inr (Or.inr (by simp [strLt, h, lt_asymm h]))

theorem strLt_trans : ∀ as bs cs, strLt as bs = true → strLt bs cs = true →
    strLt as cs = true
  | [], [], _ :: _, _, _ => rfl
  | [], _ :: _, _ :: _, _, _ => rfl
  | _, _ :: _, [], _, h2 => by simp [strLt] at h2
  | _ :: _, [], _, h1, _ => by simp [strLt] at h1
  | [], [], [], h1, _ => by simp [strLt] at h1
  | a :: as, b :: bs, c :: cs, h1, h2 => by
    rw [strLt] at h1 h2 ⊢
    by_cases hab : a < b
    · by_cases hbc : b < c
      · rw [if_pos (lt_trans hab hbc)]
      · by_cases hcb : c < b
        · simp [hbc, hcb] at h2
        · have : b = c := le_antisymm (le_of_not_lt hcb) (le_of_not_lt hbc)
          subst this
          rw [if_pos hab]
    · by_cases hba : b < a
      · simp [hab, hba] at h1
      · have heq : a = b := le_antisymm (le_of_not_lt hba) (le_of_not_lt hab)
        subst heq
        rw [if_neg hab, if_neg hba] at h1
        by_cases hbc : a < c
        · rw [if_pos hbc]
        · by_cases hcb : c < a
          · simp [hbc, hcb] at h2
          · rw [if_neg hbc, if_neg hcb] at h2 ⊢
            exact strLt_trans as bs cs h1 h2

theorem idLt_trichotomy (a b : String) :
    idLt a b = true ∨ a = b ∨ idLt b a = true := by
  rcases strLt_trichotomy a.data b.data with h | h | h
  · exact Or.inl h
  · exact Or.inr (Or.inl (String.ext h))
  · exact Or.inr (Or.inr h)

theorem idLe_total (a b : String) : idLe a b = true ∨ idLe b a = true := by
  rcases idLt_trichotomy a b with h | h | h
  · exact Or.inl (by simp [idLe, h])
  · exact Or.inl (by simp [idLe, h])
  · exact Or.inr (by simp [idLe, h])

theorem idLe_trans (a b c : String) (h1 : idLe a b = true) (h2 : idLe b c = true) :
    idLe a c = true := by
  simp only [idLe, Bool.or_eq_true, beq_iff_eq] at h1 h2 ⊢
  rcases h1 with h1 | h1
  · subst h1
    exact h2
  · rcases h2 with h2 | h2
    · subst h2
      exact Or.inr h1
    · exact Or.inr (strLt_trans _ _ _ h1 h2)

theorem idLe_ne_lt (a b : String) (h : idLe a b = true) (hne : a ≠ b) :
    idLt a b = true := by
  simp only [idLe, Bool.or_eq_true, beq_iff_eq] at h
  exact h.resolve_left hne

instance : IsTotal SearchResult resOrder := by
  constructor
  intro a b
  rcases lt_trichotomy a.score b.score with h | h | h
  · exact Or.inr (Or.inl h)
  · rcases idLe_total a.patent_id b.patent_id with h2 | h2
    · exact Or.inl (Or.inr ⟨h, h2⟩)
    · exact Or.inr (Or.inr ⟨h.symm, h2⟩)
  · exact Or.inl (Or.inl h)

instance : IsTrans SearchResult resOrder := by
  constructor
  intro a b c h1 h2
  rcases h1 with h1 | ⟨h1e, h1l⟩
  · rcases h2 with h2 | ⟨h2e, _⟩
    · exact Or.inl (lt_trans h2 h1)
    · exact Or.inl (h2e ▸ h1)
  · rcases h2 with h2 | ⟨h2e, h2l⟩
    · exact Or.inl (h1e ▸ h2)
    · exact Or.inr ⟨h1e.trans h2e, idLe_trans _ _ _ h1l h2l⟩

/-! ## Deduplication lemmas (spec §4.4 step 4) -/

theorem mem_insertBest (r : SearchResult) :
    ∀ acc x, x ∈ insertBest r acc → x = r ∨ x ∈ acc := by
  intro acc
  induction acc with
  | nil =>
    intro x hx
    rw [insertBest, List.mem_singleton] at hx
    exact Or.inl hx
  | cons a rest ih =>
    intro x hx
    rw [insertBest] at hx
    by_cases hpid : a.patent_id = r.patent_id
    · rw [if_pos hpid] at hx
      by_cases hsc : a.score < r.score
      · rw [if_pos hsc] at hx
        rcases List.mem_cons.mp hx with hx | hx
        · exact Or.inl hx
        · exact Or.inr (List.mem_cons_of_mem a hx)
      · rw [if_neg hsc] at hx
        exact Or.inr hx
    · rw [if_neg hpid] at hx
      rcases List.mem_cons.mp hx with hx | hx
      · exact Or.inr (hx ▸ List.mem_cons_self a rest)
      · rcases ih x hx with hx | hx
        · exact Or.inl hx
        · exact Or.inr (List.mem_cons_of_mem a hx)

theorem insertBest_cover_self (r : SearchResult) :
    ∀ acc, ∃ x ∈ insertBest r acc, x.patent_id = r.patent_id := by
  intro acc
  induction acc with
  | nil => exact ⟨r, by rw [insertBest]; exact List.mem_singleton.mpr rfl, rfl⟩
  | cons a rest ih =>
    rw [insertBest]
    by_cases hpid : a.patent_id = r.patent_id
    · rw [if_pos hpid]
      by_cases hsc : a.score < r.score
      · rw [if_pos hsc]
        exact ⟨r, List.mem_cons_self r rest, rfl⟩
      · rw [if_neg hsc]
        exact ⟨a, List.mem_cons_self a rest, hpid⟩
    · rw [if_neg hpid]
      obtain ⟨x, hx, hxe⟩ := ih
      exact ⟨x, List.mem_cons_of_mem a hx, hxe⟩

theorem insertBest_cover_old (r : SearchResult) :
    ∀ acc y, y ∈ acc → ∃ x ∈ insertBest r acc, x.patent_id = y.patent_id := by
  intro acc
  induction acc with
  | nil =>
    intro y hy
    exact absurd hy (List.not_mem_nil y)
  | cons a rest ih =>
    intro y hy
    rw [insertBest]
    by_cases hpid : a.patent_id = r.patent_id
    · rw [if_pos hpid]
      rcases List.mem_cons.mp hy with hy | hy
      · rw [hy]
        by_cases hsc : a.score < r.score
        · rw [if_pos hsc]
          exact ⟨r, List.mem_cons_self r rest, hpid.symm⟩
        · rw [if_neg hsc]
          exact ⟨a, List.mem_cons_self a rest, rfl⟩
      · by_cases hsc : a.score < r.score
        · rw [if_pos hsc]
          exact ⟨y, List.mem_cons_of_mem r hy, rfl⟩
        · rw [if_neg hsc]
          exact ⟨y, List.mem_cons_of_mem a hy, rfl⟩
    · rw [if_neg hpid]
      rcases List.mem_cons.mp hy with hy | hy
      · rw [hy]
        exact ⟨a, List.mem_cons_self a _, rfl⟩
      · obtain ⟨x, hx, hxe⟩ := ih y hy
        exact ⟨x, List.mem_cons_of_mem a hx, hxe⟩

theorem insertBest_pairwise (r : SearchResult) :
    ∀ acc, List.Pairwise (fun a b => a.patent_id ≠ b.patent_id) acc →
      List.Pairwise (fun a b => a.patent_id ≠ b.patent_id) (insertBest r acc) := by
  intro acc
  induction acc with
  | nil =>
    intro _
    rw [insertBest]
    exact List.pairwise_singleton _ r
  | cons a rest ih =>
    intro hd
    rw [List.pairwise_cons] at hd
    obtain ⟨ha, hrest⟩ := hd
    rw [insertBest]
    by_cases hpid : a.patent_id = r.patent_id
    · rw [if_pos hpid]
      by_cases hsc : a.score < r.score
      · rw [if_pos hsc, List.pairwise_cons]
        exact ⟨fun y hy => hpid ▸ ha y hy, hrest⟩
      · rw [if_neg hsc, List.pairwise_cons]
        exact ⟨ha, hrest⟩
    · rw [if_neg hpid, List.pairwise_cons]
      refine ⟨fun y hy => ?_, ih hrest⟩
      rcases mem_insertBest r rest y hy with hy | hy
      · exact hy ▸ hpid
      · exact ha y hy

theorem insertBest_cases (r : SearchResult) :
    ∀ acc, List.Pairwise (fun a b => a.patent_id ≠ b.patent_id) acc →
      ∀ x ∈ insertBest r acc,
        (x = r ∧ ∀ a ∈ acc, a.patent_id = r.patent_id → a.score ≤ r.score) ∨
        (x ∈ acc ∧ (x.patent_id = r.patent_id → r.score ≤ x.score)) := by
  intro acc
  induction acc with
  | nil =>
    intro _ x hx
    rw [insertBest, List.mem_singleton] at hx
    exact Or.inl ⟨hx, fun a ha => absurd ha (List.not_mem_nil a)⟩
  | cons a rest ih =>
    intro hd x hx
    rw [List.pairwise_cons] at hd
    obtain ⟨ha, hrest⟩ := hd
    rw [insertBest] at hx
    by_cases hpid : a.patent_id = r.patent_id
    · rw [if_pos hpid] at hx
      by_cases hsc : a.score < r.score
      · rw [if_pos hsc] at hx
        rcases List.mem_cons.mp hx with hx | hx
        · refine Or.inl ⟨hx, fun b hb hbe => ?_⟩
          rcases List.mem_cons.mp hb with hb | hb
          · rw [hb]
            exact le_of_lt hsc
          · exact absurd (hpid.trans hbe.symm) (ha b hb)
        · refine Or.inr ⟨List.mem_cons_of_mem a hx, fun hxe => ?_⟩
          exact absurd (hpid.trans hxe.symm) (ha x hx)
      · rw [if_neg hsc] at hx
        rcases List.mem_cons.mp hx with hx | hx
        · refine Or.inr ⟨List.mem_cons.mpr (Or.inl hx), fun hxe => ?_⟩
          rw [hx]
          exact le_of_not_lt hsc
        · refine Or.inr ⟨List.mem_cons_of_mem a hx, fun hxe => ?_⟩
          exact absurd (hpid.trans hxe.symm) (ha x hx)
    · rw [if_neg hpid] at hx
      rcases List.mem_cons.mp hx with hx | hx
      · refine Or.inr ⟨List.mem_cons.mpr (Or.inl hx), fun hxe => ?_⟩
        rw [hx] at hxe
        exact absurd hxe hpid
      · rcases ih hrest x hx with ⟨hxr, hall⟩ | ⟨hmem, himp⟩
        · refine Or.inl ⟨hxr, fun b hb hbe => ?_⟩
          rcases List.mem_cons.mp hb with hb | hb
          · exact absurd (hb ▸ hbe) hpid
          · exact hall b hb hbe
        · exact Or.inr ⟨List.mem_cons_of_mem a hmem, himp⟩

theorem dedupBest_spec : ∀ l : List SearchResult,
    List.Pairwise (fun a b => a.patent_id ≠ b.patent_id) (dedupBest l) ∧
    (∀ y ∈ l, ∃ x ∈ dedupBest l, x.patent_id = y.patent_id) ∧
    (∀ x ∈ dedupBest l, x ∈ l) ∧
    (∀ x ∈ dedupBest l, ∀ y ∈ l, y.patent_id = x.patent_id → y.score ≤ x.score) := by
  intro l
  induction l with
  | nil =>
    refine ⟨List.Pairwise.nil, ?_, ?_, ?_⟩ <;>
      · intro y hy
        exact absurd hy (List.not_mem_nil y)
  | cons r rest ih =>
    obtain ⟨hdist, hcov, hsub, hbest⟩ := ih
    rw [dedupBest]
    refine ⟨insertBest_pairwise r _ hdist, ?_, ?_, ?_⟩
    · intro y hy
      rcases List.mem_cons.mp hy with hy | hy
      · rw [hy]
        exact insertBest_cover_self r _
      · obtain ⟨x, hx, hxe⟩ := hcov y hy
        obtain ⟨x2, hx2, hxe2⟩ := insertBest_cover_old r _ x hx
        exact ⟨x2, hx2, hxe2.trans hxe⟩
    · intro x hx
      rcases mem_insertBest r _ x hx with hx | hx
      · exact List.mem_cons.mpr (Or.inl hx)
      · exact List.mem_cons_of_mem r (hsub x hx)
    · intro x hx y hy hpe
      rcases insertBest_cases r _ hdist x hx with ⟨hxr, hall⟩ | ⟨hmem, himp⟩
      · rcases List.mem_cons.mp hy with hy | hy
        · rw [hy, hxr]
        · obtain ⟨x2, hx2, hxe2⟩ := hcov y hy
          have h1 : y.score ≤ x2.score := hbest x2 hx2 y hy hxe2.symm
          have h2 : x2.score ≤ r.score :=
            hall x2 hx2 (hxe2.trans (hpe.trans (congrArg SearchResult.patent_id hxr)))
          rw [hxr]
          exact le_trans h1 h2
      · rcases List.mem_cons.mp hy with hy | hy
        · have hxe : x.patent_id = r.patent_id := by rw [← hpe, hy]
          rw [hy]
          exact himp hxe
        · exact hbest x hmem y hy hpe

/-! ## Search pipeline theorems -/

theorem search_ok (env : SearchEnv) (q : String) (k : Nat)
    (f : List (String × String)) (hq : q ≠ "") :
    search env q k f = .ok (searchCore env q k f) := by
  rw [search, searchTrace, if_neg hq]

theorem search_empty_of_error (env : SearchEnv) (q : String) (k : Nat)
    (f : List (String × String)) (rs : List SearchResult)
    (h : search env q k f = .ok rs) : rs = searchCore env q k f := by
  by_cases hq : q = ""
  · rw [hq, search, searchTrace, if_pos rfl] at h
    exact absurd h (by simp)
  · rw [search_ok env q k f hq] at h
    injection h with h
    exact h.symm

theorem searchCore_mem_dedup (env : SearchEnv) (q : String) (k : Nat)
    (f : List (String × String)) :
    ∀ x ∈ searchCore env q k f, x ∈ dedupBest (candidates env q k) := by
  intro x hx
  rw [searchCore] at hx
  have h1 : x ∈ (sortResults (dedupBest (candidates env q k))).filter
      (matchesFilters f) := (List.take_sublist _ _).mem hx
  have h2 : x ∈ sortResults (dedupBest (candidates env q k)) :=
    (List.filter_sublist _).mem h1
  exact (List.perm_insertionSort resOrder _).mem_iff.mp h2

theorem searchCore_pairwise (env : SearchEnv) (q : String) (k : Nat)
    (f : List (String × String))
    (R : SearchResult → SearchResult → Prop)
    (h : List.Pairwise R (sortResults (dedupBest (candidates env q k)))) :
    List.Pairwise R (searchCore env q k f) := by
  rw [searchCore]
  exact List.Pairwise.sublist (List.take_sublist _ _)
    (List.Pairwise.sublist (List.filter_sublist _) h)

/-- **C5.** For every environment, query, `top_k` and filters mapping,
a successful `search` returns no two results with the same `patent_id`;
every returned result is one of the resolved candidate chunks, and when
a patent contributed several candidate chunks only a highest-scoring
one is kept: every candidate with the same `patent_id` scores no higher
than the returned result. -/
theorem search_dedup_by_patent (env : SearchEnv) (q : String) (k : Nat)
    (f : List (String × String)) (rs : List SearchResult)
    (h : search env q k f = .ok rs) :
    List.Pairwise (fun a b => a.patent_id ≠ b.patent_id) rs ∧
      (∀ x ∈ rs, x ∈ candidates env q k) ∧
      ∀ x ∈ rs, ∀ y ∈ candidates env q k,
        y.patent_id = x.patent_id → y.score ≤ x.score := by
  obtain ⟨hdist, _, hsub, hbest⟩ := dedupBest_spec (candidates env q k)
  have hrs := search_empty_of_error env q k f rs h
  subst hrs
  have hsorted_ne : List.Pairwise (fun a b : SearchResult => a.patent_id ≠ b.patent_id)
      (sortResults (dedupBest (candidates env q k))) :=
    ((List.perm_insertionSort resOrder _).pairwise_iff
      (fun hab he => hab he.symm)).mpr hdist
  refine ⟨searchCore_pairwise env q k f _ hsorted_ne, ?_, ?_⟩
  · intro x hx
    exact hsub x (searchCore_mem_dedup env q k f x hx)
  · intro x hx y hy hpe
    exact hbest x (searchCore_mem_dedup env q k f x hx) y hy hpe

/-- **C6.** For every environment, query, `top_k` and filters mapping,
the results of a successful `search` are sorted by score descending,
and any two results with equal score appear in `patent_id`-ascending
order — the deterministic tie-break of spec §4.4 step 5. -/
theorem search_sorted_desc (env : SearchEnv) (q : String) (k : Nat)
    (f : List (String × String)) (rs : List SearchResult)
    (h : search env q k f = .ok rs) :
    List.Pairwise (fun a b => b.score < a.score ∨
      (a.score = b.score ∧ idLt a.patent_id b.patent_id = true)) rs := by
  obtain ⟨hdist, _, _, _⟩ := dedupBest_spec (candidates env q k)
  have hrs := search_empty_of_error env q k f rs h
  subst hrs
  have hsorted_ne : List.Pairwise (fun a b : SearchResult => a.patent_id ≠ b.patent_id)
      (sortResults (dedupBest (candidates env q k))) :=
    ((List.perm_insertionSort resOrder _).pairwise_iff
      (fun hab he => hab he.symm)).mpr hdist
  have hord : List.Pairwise resOrder (sortResults (dedupBest (candidates env q k))) :=
    List.sorted_insertionSort resOrder _
  refine searchCore_pairwise env q k f _ ((hord.and hsorted_ne).imp ?_)
  intro a b hab
  obtain ⟨hr, hne⟩ := hab
  rcases hr with hr | ⟨hre, hrl⟩
  · exact Or.inl hr
  · refine Or.inr ⟨hre, idLe_ne_lt _ _ hrl ?_⟩
    intro hcontra
    exact hne (by rw [hcontra])

/-- **C7.** For every environment, `top_k` and filters mapping, calling
`search` with the empty query string fails with `ValidationError` and
issues no network call at all: the recorded call trace is empty. -/
theorem search_empty_query_no_network (env : SearchEnv) (k : Nat)
    (f : List (String × String)) :
    searchTrace env "" k f = (.error .ValidationError, []) := by
  rw [searchTrace, if_pos rfl]

/-- The same environment with the similarity hits that do not resolve in
the Metadata Store removed from every index response. -/
def dropUnresolvable (env : SearchEnv) : SearchEnv :=
  { env with indexQuery := fun v n =>
      (env.indexQuery v n).filter fun h => (env.metaGet h.source_id).isSome }

theorem resolveHits_filter_isSome (env : SearchEnv) :
    ∀ hits, resolveHits env
        (hits.filter fun h => (env.metaGet h.source_id).isSome) =
      resolveHits env hits := by
  intro hits
  induction hits with
  | nil => rfl
  | cons h rest ih =>
    simp only [resolveHits] at ih ⊢
    cases hm : env.metaGet h.source_id with
    | none =>
      simp only [List.filter_cons, List.filterMap_cons, hm, Option.isSome_none,
        Bool.false_eq_true, if_false, Option.map_none']
      exact ih
    | some r =>
      simp only [List.filter_cons, List.filterMap_cons, hm, Option.isSome_some,
        if_true, Option.map_some']
      rw [ih]

/-- **C8.** For every environment and non-empty query, `search` never
fails past validation: it returns a result list, and that list is
exactly what the query returns when every drifted hit (a similarity hit
whose `source_id` has no Metadata Store record) is removed from the
index response — each such hit is dropped individually and the rest of
the query proceeds. -/
theorem search_drift_tolerant (env : SearchEnv) (q : String) (k : Nat)
    (f : List (String × String)) (hq : q ≠ "") :
    ∃ rs, search env q k f = .ok rs ∧
      search (dropUnresolvable env) q k f = .ok rs := by
  refine ⟨searchCore env q k f, search_ok env q k f hq, ?_⟩
  rw [search_ok (dropUnresolvable env) q k f hq]
  have hcand : candidates (dropUnresolvable env) q k = candidates env q k := by
    rw [candidates, candidates, dropUnresolvable]
    exact resolveHits_filter_isSome env _
  rw [searchCore, searchCore, hcand]

/-! ## Concrete search environments for the witnesses -/

/-- Concrete metadata record. -/
def exMetaP1 : MetaRecord := ⟨"p1", "Title1", "Abs1", [("year", "2001")]⟩

/-- Concrete metadata record. -/
def exMetaP2 : MetaRecord := ⟨"p2", "Title2", "Abs2", [("year", "2002")]⟩

/-- Concrete metadata record. -/
def exMetaP3 : MetaRecord := ⟨"p3", "Title3", "Abs3", [("year", "2003")]⟩

/-- A concrete environment: patent `p2` contributes two chunks, and the
hit `ghost` has no Metadata Store record (index/metadata drift). -/
def exEnv : SearchEnv where
  embedQ := fun _ => [1, 0]
  indexQuery := fun _ _ =>
    [⟨"p2", 9, "fin cooling"⟩, ⟨"p1", 7, "heat sink"⟩, ⟨"p2", 5, "vents"⟩,
      ⟨"ghost", 8, "stale chunk"⟩]
  metaGet := fun id =>
    if id = "p1" then some exMetaP1
    else if id = "p2" then some exMetaP2
    else if id = "p3" then some exMetaP3
    else none

/-- A concrete environment with a score tie between `p1` and `p3`. -/
def exEnv2 : SearchEnv where
  embedQ := fun _ => [1, 0]
  indexQuery := fun _ _ =>
    [⟨"p2", 9, "fin cooling"⟩, ⟨"p3", 7, "radiator"⟩, ⟨"p1", 7, "heat sink"⟩]
  metaGet := exEnv.metaGet

/-- The results `exEnv` produces for a two-result query. -/
def exRS : List SearchResult :=
  [⟨"p2", 9, "fin cooling", exMetaP2⟩, ⟨"p1", 7, "heat sink", exMetaP1⟩]

/-- The results `exEnv2` produces for a three-result query. -/
def exRS2 : List SearchResult :=
  [⟨"p2", 9, "fin cooling", exMetaP2⟩, ⟨"p1", 7, "heat sink", exMetaP1⟩,
    ⟨"p3", 7, "radiator", exMetaP3⟩]

/-- **C5 witness**: deduplication at a concrete query where `p2`
contributed two chunks and only its higher-scoring chunk survives. -/
theorem search_dedup_by_patent_witness :
    List.Pairwise (fun a b => a.patent_id ≠ b.patent_id) exRS ∧
      (∀ x ∈ exRS, x ∈ candidates exEnv "cooling" 2) ∧
      ∀ x ∈ exRS, ∀ y ∈ candidates exEnv "cooling" 2,
        y.patent_id = x.patent_id → y.score ≤ x.score :=
  search_dedup_by_patent exEnv "cooling" 2 [] exRS (by rfl)

/-- **C6 witness**: the sort order at a concrete query with a score tie
between `p1` and `p3`, broken by `patent_id` ascending. -/
theorem search_sorted_desc_witness :
    List.Pairwise (fun a b => b.score < a.score ∨
      (a.score = b.score ∧ idLt a.patent_id b.patent_id = true)) exRS2 :=
  search_sorted_desc exEnv2 "cooling" 3 [] exRS2 (by rfl)

/-- **C8 witness**: at a concrete query the drifted hit `ghost` is
dropped and the query returns the remaining results. -/
theorem search_drift_tolerant_witness :
    ∃ rs, search exEnv "cooling" 2 [] = .ok rs ∧
      search (dropUnresolvable exEnv) "cooling" 2 [] = .ok rs :=
  search_drift_tolerant exEnv "cooling" 2 [] (by decide)

/-! ## Ingestion pipeline data model (spec §3, §4.3) -/

/-- A patent document (spec §3): the immutable input of ingestion. -/
structure PatentDocument where
  id : String
  title : String
  abstract : String
  full_text : String
  metadata : List (String × String)
deriving Repr, DecidableEq

/-- One chunk entry persisted in the Vector Index: the owning document,
the chunk's order within it, its text and its embedding vector. -/
structure VecEntry where
  source_id : String
  sequence_index : Nat
  text : List Char
  vec : List Rat
deriving Repr, DecidableEq

/-- The two stores the Ingestion Pipeline writes (spec §2): the Vector
Index and the Metadata Store. -/
structure PipelineState where
  index : List VecEntry
  meta : List (String × MetaRecord)
deriving Repr, DecidableEq

/-- Chunking parameters of the pipeline (spec §4.1). -/
structure IngestConfig where
  max_chunk_chars : Nat
  overlap_chars : Nat
deriving Repr, DecidableEq

/-- External collaborators of one ingestion (spec §4.2, §6): the batched
embedding call (`none` models an `EmbeddingUnavailable` provider
failure, e.g. failing on the 2nd of 3 internal batches) and the index
transport (`upsertFailsAt = some j` models the `j`-th staged upsert
call failing mid-batch when `j` is within the batch). -/
structure IngestEnv where
  embed : List (List Char) → Option (List (List Rat))
  upsertFailsAt : Option Nat

/-- Ingestion errors (spec §7). -/
inductive IngestError where
  | ValidationError
  | InvalidConfiguration
  | EmbeddingUnavailable
  | UpsertFailed
deriving Repr, DecidableEq

/-- Replace the record stored under `id`, or append it when absent. -/
def putMeta : List (String × MetaRecord) → String → MetaRecord → List (String × MetaRecord)
  | [], id, r => [(id, r)]
  | (k, v) :: rest, id, r =>
    if k = id then (id, r) :: rest else (k, v) :: putMeta rest id r

/-- The document's structured fields as a Metadata Store record. -/
def docRecord (doc : PatentDocument) : MetaRecord :=
  ⟨doc.id, doc.title, doc.abstract, doc.metadata⟩

/-- The Vector Index entries of one ingestion: the chunks zipped with
their embedding vectors, keyed by the document id. -/
def mkEntries (doc : PatentDocument) (cs : List Chunk) (vs : List (List Rat)) :
    List VecEntry :=
  (cs.zip vs).map fun cv => ⟨doc.id, cv.1.sequence_index, cv.1.text, cv.2⟩

/-- Whether the transport fails one of the `n` staged upsert calls. -/
def upsertFails : Option Nat → Nat → Bool
  | some j, n => decide (j < n)
  | none, _ => false

/-- Modelled from the spec (§4.3, `backend/ingest.py` is absent from the
tree): `ingest(document)` — validate (step 1), chunk (step 2), embed all
chunks in one logical batch (step 3), stage the (vector, chunk metadata)
upserts under a staging key swapped atomically at the end (step 4, one
of the two roll-back strategies the spec sanctions; the swap replaces
every prior chunk of the same id, making re-ingestion idempotent), then
upsert the document's structured fields into the Metadata Store under
`id` (step 5).  The post-call state is returned together with the
result; a failure at steps 1–4 discards the staging key, leaving the
stores exactly as before the call.  On success the result carries
`chunks_written`. -/
def ingest (env : IngestEnv) (cfg : IngestConfig) (st : PipelineState)
    (doc : PatentDocument) : PipelineState × Except IngestError Nat :=
  if doc.full_text = "" ∨ doc.id = "" then (st, .error .ValidationError)
  else
    match chunk doc.full_text.data cfg.max_chunk_chars cfg.overlap_chars with
    | .error _ => (st, .error .InvalidConfiguration)
    | .ok cs =>
      match env.embed (cs.map Chunk.text) with
      | none => (st, .error .EmbeddingUnavailable)
      | some vs =>
        if upsertFails env.upsertFailsAt cs.length then (st, .error .UpsertFailed)
        else
          ({ index := st.index.filter (fun e => decide (e.source_id ≠ doc.id)) ++
                mkEntries doc cs vs,
              meta := putMeta st.meta doc.id (docRecord doc) },
            .ok (mkEntries doc cs vs).length)

/-- The chunk entries a (successful) ingestion of `doc` writes; empty
when chunking or embedding cannot succeed. -/
def plannedEntries (env : IngestEnv) (cfg : IngestConfig) (doc : PatentDocument) :
    List VecEntry :=
  match chunk doc.full_text.data cfg.max_chunk_chars cfg.overlap_chars with
  | .error _ => []
  | .ok cs =>
    match env.embed (cs.map Chunk.text) with
    | none => []
    | some vs => mkEntries doc cs vs

/-! ## Ingestion lemmas -/

theorem mkEntries_source (doc : PatentDocument) (cs : List Chunk)
    (vs : List (List Rat)) : ∀ e ∈ mkEntries doc cs vs, e.source_id = doc.id := by
  intro e he
  rw [mkEntries] at he
  obtain ⟨cv, _, rfl⟩ := List.mem_map.mp he
  rfl

theorem filter_ne_filter_ne (l : List VecEntry) (id : String) :
    ((l.filter fun e => decide (e.source_id ≠ id)).filter
      fun e => decide (e.source_id ≠ id)) = l.filter fun e => decide (e.source_id ≠ id) := by
  rw [List.filter_filter]
  simp only [Bool.and_self]

theorem mkEntries_filter_ne (doc : PatentDocument) (cs : List Chunk)
    (vs : List (List Rat)) :
    ((mkEntries doc cs vs).filter fun e => decide (e.source_id ≠ doc.id)) = [] := by
  rw [List.filter_eq_nil_iff]
  intro e he
  simp [mkEntries_source doc cs vs e he]

theorem mkEntries_filter_eq (doc : PatentDocument) (cs : List Chunk)
    (vs : List (List Rat)) :
    ((mkEntries doc cs vs).filter fun e => decide (e.source_id = doc.id)) =
      mkEntries doc cs vs := by
  rw [List.filter_eq_self]
  intro e he
  simp [mkEntries_source doc cs vs e he]

theorem filter_ne_then_eq (l : List VecEntry) (id : String) :
    ((l.filter fun e => decide (e.source_id ≠ id)).filter
      fun e => decide (e.source_id = id)) = [] := by
  rw [List.filter_eq_nil_iff]
  intro e he
  rw [List.mem_filter] at he
  simp only [decide_eq_true_eq] at he ⊢
  exact he.2

theorem putMeta_idem (m : List (String × MetaRecord)) (id : String) (r : MetaRecord) :
    putMeta (putMeta m id r) id r = putMeta m id r := by
  induction m with
  | nil => simp [putMeta]
  | cons kv rest ih =>
    obtain ⟨k, v⟩ := kv
    rw [putMeta]
    by_cases hk : k = id
    · rw [if_pos hk, putMeta, if_pos rfl]
    · rw [if_neg hk, putMeta, if_neg hk, ih]

theorem ingest_of_invalid (env : IngestEnv) (cfg : IngestConfig)
    (doc : PatentDocument) (h1 : doc.full_text = "" ∨ doc.id = "") :
    ∀ st, ingest env cfg st doc = (st, .error .ValidationError) := fun st => by
  rw [ingest, if_pos h1]

theorem ingest_of_chunk_error (env : IngestEnv) (cfg : IngestConfig)
    (doc : PatentDocument) (err : ChunkError)
    (h1 : ¬(doc.full_text = "" ∨ doc.id = ""))
    (h2 : chunk doc.full_text.data cfg.max_chunk_chars cfg.overlap_chars = .error err) :
    ∀ st, ingest env cfg st doc = (st, .error .InvalidConfiguration) := fun st => by
  rw [ingest, if_neg h1, h2]

theorem ingest_of_embed_none (env : IngestEnv) (cfg : IngestConfig)
    (doc : PatentDocument) (cs : List Chunk)
    (h1 : ¬(doc.full_text = "" ∨ doc.id = ""))
    (h2 : chunk doc.full_text.data cfg.max_chunk_chars cfg.overlap_chars = .ok cs)
    (h3 : env.embed (cs.map Chunk.text) = none) :
    ∀ st, ingest env cfg st doc = (st, .error .EmbeddingUnavailable) := fun st => by
  rw [ingest, if_neg h1, h2]
  dsimp only
  rw [h3]

theorem ingest_of_upsert_fail (env : IngestEnv) (cfg : IngestConfig)
    (doc : PatentDocument) (cs : List Chunk) (vs : List (List Rat))
    (h1 : ¬(doc.full_text = "" ∨ doc.id = ""))
    (h2 : chunk doc.full_text.data cfg.max_chunk_chars cfg.overlap_chars = .ok cs)
    (h3 : env.embed (cs.map Chunk.text) = some vs)
    (h4 : upsertFails env.upsertFailsAt cs.length = true) :
    ∀ st, ingest env cfg st doc = (st, .error .UpsertFailed) := fun st => by
  rw [ingest, if_neg h1, h2]
  dsimp only
  rw [h3]
  dsimp only
  rw [if_pos h4]

theorem ingest_of_success (env : IngestEnv) (cfg : IngestConfig)
    (doc : PatentDocument) (cs : List Chunk) (vs : List (List Rat))
    (h1 : ¬(doc.full_text = "" ∨ doc.id = ""))
    (h2 : chunk doc.full_text.data cfg.max_chunk_chars cfg.overlap_chars = .ok cs)
    (h3 : env.embed (cs.map Chunk.text) = some vs)
    (h4 : upsertFails env.upsertFailsAt cs.length = false) :
    ∀ st, ingest env cfg st doc =
      ({ index := st.index.filter (fun e => decide (e.source_id ≠ doc.id)) ++
            mkEntries doc cs vs,
          meta := putMeta st.meta doc.id (docRecord doc) },
        .ok (mkEntries doc cs vs).length) := fun st => by
  rw [ingest, if_neg h1, h2]
  dsimp only
  rw [h3]
  dsimp only
  rw [if_neg (by simp [h4])]

/-! ## Ingestion theorems -/

/-- **C1 (amended).** A failed ingestion — validation, configuration,
embedding (step 3) or staged upsert (step 4) failure — leaves both
stores exactly as before the call: the Vector Index holds for the
document precisely the chunks it held before (none, when the document
had never been successfully ingested) and the Metadata Store is
untouched.  (The claim's stronger reading — that after any failure the
index holds no chunk of the document at all — fails when a previously
ingested document is re-ingested and the embedding fails: the earlier
version's chunks survive; see the counterexample.) -/
theorem ingest_error_leaves_state_unchanged (env : IngestEnv) (cfg : IngestConfig)
    (st : PipelineState) (doc : PatentDocument) (e : IngestError)
    (h : (ingest env cfg st doc).2 = .error e) :
    (ingest env cfg st doc).1 = st ∧
      ((∀ v ∈ st.index, v.source_id ≠ doc.id) →
        ∀ v ∈ (ingest env cfg st doc).1.index, v.source_id ≠ doc.id) ∧
      (ingest env cfg st doc).1.meta = st.meta := by
  have hmain : (ingest env cfg st doc).1 = st := by
    by_cases h1 : doc.full_text = "" ∨ doc.id = ""
    · rw [ingest_of_invalid env cfg doc h1 st]
    · cases h2 : chunk doc.full_text.data cfg.max_chunk_chars cfg.overlap_chars with
      | error err => rw [ingest_of_chunk_error env cfg doc err h1 h2 st]
      | ok cs =>
        cases h3 : env.embed (cs.map Chunk.text) with
        | none => rw [ingest_of_embed_none env cfg doc cs h1 h2 h3 st]
        | some vs =>
          cases h4 : upsertFails env.upsertFailsAt cs.length with
          | true => rw [ingest_of_upsert_fail env cfg doc cs vs h1 h2 h3 h4 st]
          | false =>
            rw [ingest_of_success env cfg doc cs vs h1 h2 h3 h4 st] at h
            simp at h
  refine ⟨hmain, ?_, ?_⟩
  · rw [hmain]
    exact fun hf => hf
  · rw [hmain]

/-- A concrete patent document. -/
def exDoc : PatentDocument :=
  ⟨"p1", "Cooling device", "A cooling device.",
    "A method for cooling. The device has fins. It works well.", [("year", "2001")]⟩

/-- A concrete chunking configuration. -/
def exCfg : IngestConfig := ⟨20, 6⟩

/-- An environment whose embedding provider and index transport always
succeed. -/
def envOK : IngestEnv := ⟨fun ts => some (ts.map fun _ => [1, 0]), none⟩

/-- An environment whose embedding provider fails (step 3). -/
def envEmbedFail : IngestEnv := ⟨fun _ => none, none⟩

/-- The empty pipeline state. -/
def st0 : PipelineState := ⟨[], []⟩

/-- The state after one successful ingestion of `exDoc`. -/
def exSt1 : PipelineState := (ingest envOK exCfg st0 exDoc).1

/-- **C1 counterexample**: re-ingesting an already ingested document
with a failing embedding provider (step 3) returns
`EmbeddingUnavailable`, yet the Vector Index is not free of that
document's chunks — the earlier version's chunks are still there.  So
"after ingest returns the error the Vector Index contains none of that
document's chunks" is false as universally stated. -/
theorem ingest_allornothing_counterexample :
    (ingest envEmbedFail exCfg exSt1 exDoc).2 =
        Except.error IngestError.EmbeddingUnavailable ∧
      ¬ ∀ v ∈ (ingest envEmbedFail exCfg exSt1 exDoc).1.index,
          v.source_id ≠ exDoc.id :=
  ⟨rfl, by decide⟩

/-- **C1 (amended) witness**: a failed first-time ingestion at a
concrete document leaves the empty stores unchanged. -/
theorem ingest_error_leaves_state_unchanged_witness :
    (ingest envEmbedFail exCfg st0 exDoc).1 = st0 ∧
      ((∀ v ∈ st0.index, v.source_id ≠ exDoc.id) →
        ∀ v ∈ (ingest envEmbedFail exCfg st0 exDoc).1.index,
          v.source_id ≠ exDoc.id) ∧
      (ingest envEmbedFail exCfg st0 exDoc).1.meta = st0.meta :=
  ingest_error_leaves_state_unchanged envEmbedFail exCfg st0 exDoc
    IngestError.EmbeddingUnavailable (by rfl)

/-- **C2.** Ingesting the same document twice leaves the pipeline state
— in particular the Vector Index — exactly as one ingestion does, and
after a successful ingestion the index holds for that document exactly
the chunk set of the latest ingestion (old chunks replaced, no
duplicates accumulated). -/
theorem ingest_idempotent (env : IngestEnv) (cfg : IngestConfig)
    (st : PipelineState) (doc : PatentDocument) :
    (ingest env cfg ((ingest env cfg st doc).1) doc).1 = (ingest env cfg st doc).1 ∧
      ∀ n, (ingest env cfg st doc).2 = .ok n →
        ((ingest env cfg st doc).1.index.filter fun e => decide (e.source_id = doc.id)) =
          plannedEntries env cfg doc := by
  by_cases h1 : doc.full_text = "" ∨ doc.id = ""
  · have hx := ingest_of_invalid env cfg doc h1
    refine ⟨?_, ?_⟩
    · rw [hx st, hx]
    · intro n hn
      rw [hx st] at hn
      simp at hn
  · cases h2 : chunk doc.full_text.data cfg.max_chunk_chars cfg.overlap_chars with
    | error err =>
      have hx := ingest_of_chunk_error env cfg doc err h1 h2
      refine ⟨?_, ?_⟩
      · rw [hx st, hx]
      · intro n hn
        rw [hx st] at hn
        simp at hn
    | ok cs =>
      cases h3 : env.embed (cs.map Chunk.text) with
      | none =>
        have hx := ingest_of_embed_none env cfg doc cs h1 h2 h3
        refine ⟨?_, ?_⟩
        · rw [hx st, hx]
        · intro n hn
          rw [hx st] at hn
          simp at hn
      | some vs =>
        cases h4 : upsertFails env.upsertFailsAt cs.length with
        | true =>
          have hx := ingest_of_upsert_fail env cfg doc cs vs h1 h2 h3 h4
          refine ⟨?_, ?_⟩
          · rw [hx st, hx]
          · intro n hn
            rw [hx st] at hn
            simp at hn
        | false =>
          have hx := ingest_of_success env cfg doc cs vs h1 h2 h3 h4
          refine ⟨?_, ?_⟩
          · rw [hx st, hx]
            dsimp only
            rw [List.filter_append, filter_ne_filter_ne, mkEntries_filter_ne,
              List.append_nil, putMeta_idem]
          · intro n hn
            rw [hx st]
            dsimp only
            rw [List.filter_append, filter_ne_then_eq, mkEntries_filter_eq,
              List.nil_append, plannedEntries, h2]
            dsimp only
            rw [h3]

/-- **C2 witness**: idempotent re-ingestion at a concrete document and
environment; the index holds exactly the latest ingestion's chunk set. -/
theorem ingest_idempotent_witness :
    (ingest envOK exCfg ((ingest envOK exCfg st0 exDoc).1) exDoc).1 =
        (ingest envOK exCfg st0 exDoc).1 ∧
      ((ingest envOK exCfg st0 exDoc).1.index.filter
          fun e => decide (e.source_id = exDoc.id)) =
        plannedEntries envOK exCfg exDoc :=
  ⟨(ingest_idempotent envOK exCfg st0 exDoc).1,
    (ingest_idempotent envOK exCfg st0 exDoc).2 4 (by rfl)⟩

/-! ## Frontend handlers (from `frontend/src/App.jsx` and
`frontend/src/components/SearchBox.jsx`) -/

/-- A code point JavaScript's `String.prototype.trim` (and the string
truthiness test) treats as whitespace: WhiteSpace and LineTerminator
code points of the ECMAScript specification. -/
def isJsWhitespace (c : Char) : Bool :=
  c.toNat ∈ [9, 10, 11, 12, 13, 32, 160, 5760, 8192, 8193, 8194, 8195, 8196,
    8197, 8198, 8199, 8200, 8201, 8202, 8232, 8233, 8239, 8287, 12288, 65279]

/-- JavaScript's `query.trim()`: strip leading and trailing whitespace. -/
def jsTrim (s : List Char) : List Char :=
  ((s.dropWhile isJsWhitespace).reverse.dropWhile isJsWhitespace).reverse

/-- `SearchBox.handleSubmit` (SearchBox.jsx): after `preventDefault`, it
calls `onSearch(query.trim())` exactly when `query.trim()` is truthy —
a non-empty string.  The returned value is the argument passed to
`onSearch`, or `none` when `onSearch` is not called. -/
def handleSubmit (query : String) : Option (List Char) :=
  if jsTrim query.data ≠ [] then some (jsTrim query.data) else none

theorem forall_dropWhile_iff (p : Char → Bool) :
    ∀ s : List Char, (∀ x ∈ s.dropWhile p, p x = true) ↔ ∀ x ∈ s, p x = true := by
  intro s
  induction s with
  | nil => simp
  | cons c s ih =>
    rw [List.dropWhile_cons]
    by_cases hc : p c = true
    · rw [if_pos hc]
      constructor
      · intro h x hx
        rcases List.mem_cons.mp hx with hx | hx
        · rw [hx]
          exact hc
        · exact ih.mp h x hx
      · intro h x hx
        exact ih.mpr (fun y hy => h y (List.mem_cons_of_mem c hy)) x hx
    · rw [if_neg hc]

theorem jsTrim_eq_nil_iff (s : List Char) :
    jsTrim s = [] ↔ ∀ x ∈ s, isJsWhitespace x = true := by
  rw [jsTrim, List.reverse_eq_nil_iff, List.dropWhile_eq_nil_iff]
  simp only [List.mem_reverse]
  exact forall_dropWhile_iff isJsWhitespace s

/-- **C9.** For every form submission of `SearchBox`, `onSearch` is
invoked if and only if the entered query contains at least one
non-whitespace character, and when invoked its argument is the trimmed
query; an empty or whitespace-only input triggers no search call. -/
theorem handleSubmit_spec (q : String) :
    handleSubmit q =
      if q.data.any (fun c => !isJsWhitespace c) then some (jsTrim q.data)
      else none := by
  rw [handleSubmit]
  by_cases hany : q.data.any (fun c => !isJsWhitespace c) = true
  · rw [if_pos hany]
    obtain ⟨x, hx, hpx⟩ := List.any_eq_true.mp hany
    rw [if_pos]
    intro hnil
    have := (jsTrim_eq_nil_iff q.data).mp hnil x hx
    rw [this] at hpx
    exact absurd hpx (by decide)
  · rw [if_neg hany, if_neg]
    intro hne
    apply hne
    rw [jsTrim_eq_nil_iff]
    intro x hx
    by_contra hw
    exact hany (List.any_eq_true.mpr ⟨x, hx, by simp [hw]⟩)

/-- A rendered search result of the frontend (App.jsx uses
`result.title`, `result.abstract`, `result.id`). -/
structure ResultItem where
  id : String
  title : String
  abstract : String
deriving Repr, DecidableEq

/-- The two `useState` cells of `App`. -/
structure AppState where
  searchResults : List ResultItem
  loading : Bool
deriving Repr, DecidableEq

/-- How the awaited network interaction of `handleSearch` settles: the
`fetch` resolves and `response.json()` parses, the `fetch` itself
throws, or the JSON parsing throws. -/
inductive FetchOutcome where
  | ok (results : List ResultItem)
  | fetchThrow
  | jsonThrow
deriving Repr, DecidableEq

/-- `App.handleSearch` (App.jsx lines 9–21): `setLoading(true)`; in the
`try` block await the fetch and the JSON parse and `setSearchResults`;
the `catch` block only logs; the `finally` block runs
`setLoading(false)` whichever way the `try` settled. -/
def handleSearch (st : AppState) (outcome : FetchOutcome) : AppState :=
  let st1 : AppState := { st with loading := true }
  let st2 : AppState :=
    match outcome with
    | .ok rs => { st1 with searchResults := rs }
    | .fetchThrow => st1
    | .jsonThrow => st1
  { st2 with loading := false }

/-- **C10.** When the fetch or the JSON parsing throws, `handleSearch`
leaves `searchResults` unchanged (the previously displayed results
remain) and resets `loading` to `false` once the invocation settles. -/
theorem handleSearch_error_preserves_results (st : AppState) :
    (handleSearch st .fetchThrow).searchResults = st.searchResults ∧
      (handleSearch st .fetchThrow).loading = false ∧
      (handleSearch st .jsonThrow).searchResults = st.searchResults ∧
      (handleSearch st .jsonThrow).loading = false :=
  ⟨rfl, rfl, rfl, rfl⟩

end PatentDev
